import Mathlib

/-!
Verification of the freehand masking subsystem of the Thumbgenai repository.

The definitions below are a shallow embedding of the canonical
`MaskingCanvas.tsx` component (region model, merge engine, history engine)
and of the region-prompt reconciliation in `App.tsx`.  JS numbers are
modelled by exact rationals; JS arrays by Lean lists.
-/

namespace Thumbgen

/-- A point in canvas pixel space (`type Point = { x: number; y: number }`). -/
structure Point where
  x : ℚ
  y : ℚ
deriving DecidableEq

/-- One continuous drag (`type Path = Point[]`). -/
abbrev Path := List Point

/-- `type Bbox = { minX: number; minY: number; maxX: number; maxY: number }`. -/
structure Bbox where
  minX : ℚ
  minY : ℚ
  maxX : ℚ
  maxY : ℚ
deriving DecidableEq

/-- `type Region = { id: number; paths: Path[]; bbox: Bbox }`. -/
structure Region where
  id : ℕ
  paths : List Path
  bbox : Bbox
deriving DecidableEq

/-- `const MERGE_THRESHOLD_MULTIPLIER = 2.5`. -/
def MERGE_THRESHOLD_MULTIPLIER : ℚ := 2.5

/-- `getPathBbox` reduces a path to its bounding box.  The source reduces
from the sentinel box `{minX: ∞, minY: ∞, maxX: −∞, maxY: −∞}`; absorbing
the first point turns the accumulator into that point's degenerate box, so
for the nonempty paths the program ever passes to it (`stopDrawing` guards
`length > 0`) the fold below from the head is the same function.  The empty
case (the sentinel box in the source, unreachable through `stopDrawing`)
returns a dummy box. -/
def getPathBbox : Path → Bbox
  | [] => ⟨0, 0, 0, 0⟩
  | p :: rest =>
    rest.foldl
      (fun acc q =>
        ⟨min acc.minX q.x, min acc.minY q.y, max acc.maxX q.x, max acc.maxY q.y⟩)
      ⟨p.x, p.y, p.x, p.y⟩

/-- `mergeBboxes`: component-wise min/max union of two boxes. -/
def mergeBboxes (b1 b2 : Bbox) : Bbox :=
  ⟨min b1.minX b2.minX, min b1.minY b2.minY, max b1.maxX b2.maxX, max b1.maxY b2.maxY⟩

/-- `areBboxesClose`: expand `b1` by `threshold` on all four sides and test
intersection with `b2`. -/
def areBboxesClose (b1 b2 : Bbox) (threshold : ℚ) : Bool :=
  decide (b1.minX - threshold ≤ b2.maxX) && decide (b1.maxX + threshold ≥ b2.minX) &&
  decide (b1.minY - threshold ≤ b2.maxY) && decide (b1.maxY + threshold ≥ b2.minY)

/-- `Math.max(...ids)` over the (nonempty, as guarded at the call site in
`stopDrawing`) list of region ids.  For a nonempty list of naturals the fold
from `0` is exactly its maximum. -/
def jsMax (l : List ℕ) : ℕ := l.foldl max 0

/-- The `regions.map(...)` loop of `stopDrawing` with its closure-captured
`merged` flag: the first region whose bbox is close to the new path's bbox
absorbs the new path (paths appended, bbox merged) and every later region is
returned unchanged (the `!merged` test fails); returns the mapped list and
the final value of the flag. -/
def mergeLoop (threshold : ℚ) (newPath : Path) (newPathBbox : Bbox) :
    List Region → List Region × Bool
  | [] => ([], false)
  | r :: rest =>
    if areBboxesClose r.bbox newPathBbox threshold then
      (⟨r.id, r.paths ++ [newPath], mergeBboxes r.bbox newPathBbox⟩ :: rest, true)
    else
      let res := mergeLoop threshold newPath newPathBbox rest
      (r :: res.1, res.2)

/-- The region-set update of `stopDrawing` for a completed path: first-match
merge, else push a new region with id `(regions.length > 0 ?
Math.max(...regions.map(r => r.id)) : 0) + 1`. -/
def commitPath (brushSize : ℚ) (regions : List Region) (newPath : Path) : List Region :=
  let newPathBbox := getPathBbox newPath
  let res := mergeLoop (brushSize * MERGE_THRESHOLD_MULTIPLIER) newPath newPathBbox regions
  if res.2 then
    res.1
  else
    res.1 ++
      [⟨(if 0 < regions.length then jsMax (regions.map Region.id) else 0) + 1,
        [newPath], newPathBbox⟩]

/-- The component's history state: `history : Region[][]` and
`historyIndex : number`. -/
@[ext]
structure CanvasState where
  history : List (List Region)
  historyIndex : ℕ
deriving DecidableEq

/-- `useState<Region[][]>([[]])`, `useState(0)`: the initial history is the
single empty snapshot. -/
def initState : CanvasState := ⟨[[]], 0⟩

/-- `const regions = history[historyIndex] || []`. -/
def currentRegions (s : CanvasState) : List Region := s.history.getD s.historyIndex []

/-- `updateHistory`: `history.slice(0, historyIndex + 1)`, push the new
snapshot, set the index to the end. -/
def updateHistory (s : CanvasState) (newRegions : List Region) : CanvasState :=
  let newHistory := s.history.take (s.historyIndex + 1) ++ [newRegions]
  ⟨newHistory, newHistory.length - 1⟩

/-- `stopDrawing` on the state: commit the captured path when
`currentPath.current.length > 0`, otherwise leave the state unchanged. -/
def stopDrawing (brushSize : ℚ) (s : CanvasState) (currentPath : Path) : CanvasState :=
  if 0 < currentPath.length then
    updateHistory s (commitPath brushSize (currentRegions s) currentPath)
  else s

/-- The undo-trigger effect: `setHistoryIndex(i => Math.max(0, i - 1))`
(truncated subtraction on ℕ is exactly `max 0 (i − 1)`). -/
def undoStep (s : CanvasState) : CanvasState := ⟨s.history, s.historyIndex - 1⟩

/-- The redo-trigger effect:
`setHistoryIndex(i => Math.min(history.length - 1, i + 1))`. -/
def redoStep (s : CanvasState) : CanvasState :=
  ⟨s.history, min (s.history.length - 1) (s.historyIndex + 1)⟩

/-- The clear-trigger effect: `setHistory([[]]); setHistoryIndex(0)`. -/
def clearHistory (_s : CanvasState) : CanvasState := ⟨[[]], 0⟩

/-- `canUndo: historyIndex > 0`. -/
def canUndo (s : CanvasState) : Bool := decide (0 < s.historyIndex)

/-- `canRedo: historyIndex < history.length - 1`. -/
def canRedo (s : CanvasState) : Bool := decide (s.historyIndex < s.history.length - 1)

/-- One user-visible event of a masking session: a completed stroke (with the
brush size in effect when it finished) or one firing of the undo / redo /
clear trigger. -/
inductive Ev where
  | stroke (brushSize : ℚ) (path : Path)
  | undo
  | redo
  | clear
deriving DecidableEq

/-- Effect of one event on the component state. -/
def step (s : CanvasState) : Ev → CanvasState
  | .stroke b p => stopDrawing b s p
  | .undo => undoStep s
  | .redo => redoStep s
  | .clear => clearHistory s

/-- Run a list of events from a given state. -/
def runFrom (s : CanvasState) (evs : List Ev) : CanvasState := evs.foldl step s

/-- Run a session from the initial state. -/
def run (evs : List Ev) : CanvasState := runFrom initState evs

/-- The stroke events of a list of completed strokes, each with its brush
size. -/
def strokeEvs (pairs : List (ℚ × Path)) : List Ev :=
  pairs.map (fun bp => Ev.stroke bp.1 bp.2)

/-- The component-wise min/max union of the per-path bounding boxes of a
(nonempty) list of paths — the quantity the spec's bbox invariant compares a
region's `bbox` against. -/
def pathsBbox : List Path → Bbox
  | [] => ⟨0, 0, 0, 0⟩
  | p :: rest => rest.foldl (fun acc q => mergeBboxes acc (getPathBbox q)) (getPathBbox p)

/-- One `{ id: number; prompt: string }` entry of `regionPrompts` in
`App.tsx`. -/
structure RegionPrompt where
  id : ℕ
  prompt : String
deriving DecidableEq

/-- `handleRegionsChange` in `App.tsx`: map the current region ids to prompt
entries, reusing `prev.find(p => p.id === region.id)` when it exists and
creating `{ id, prompt: '' }` otherwise.  The incoming `{ id: number }[]` is
modelled by its list of ids. -/
def handleRegionsChange (regions : List ℕ) (prev : List RegionPrompt) : List RegionPrompt :=
  regions.map (fun rid =>
    match prev.find? (fun p => p.id == rid) with
    | some existing => existing
    | none => ⟨rid, ""⟩)

/-- Modelled from the spec (§4.6), for the refinement comparison with
`handleRegionsChange`: one entry per current region id, in the ids' current
order; an id that already had an entry keeps its previous text; a new id
gets empty text; entries for ids no longer present are dropped. -/
def reconcileSpec (regions : List ℕ) (prev : List RegionPrompt) : List RegionPrompt :=
  regions.map (fun rid =>
    ⟨rid,
      match prev.find? (fun p => p.id == rid) with
      | some e => e.prompt
      | none => ""⟩)

/-- Abstract stand-in for an encoded output raster of `generateOutputImages`;
it records the region set it was rendered from (the pixel contents are
produced by the browser canvas and are outside this embedding). -/
structure RenderedImage where
  regions : List Region
deriving DecidableEq

/-- What `generateOutputImages` does to one of its callbacks: leave it
uninvoked, or invoke it with `null` or with an encoded image. -/
inductive Callback (α : Type) where
  | notCalled
  | called (value : Option α)
deriving DecidableEq

/-- `generateOutputImages`: when `regions.length === 0`, report both the
composite and the mask as absent (`null`) and return; otherwise, if the
source image has not finished loading, return without invoking either
callback; otherwise render and report both images. -/
def generateOutputImages (regions : List Region) (imageLoaded : Bool) :
    Callback RenderedImage × Callback RenderedImage :=
  if regions.length = 0 then
    (Callback.called none, Callback.called none)
  else if imageLoaded = false then
    (Callback.notCalled, Callback.notCalled)
  else
    (Callback.called (some ⟨regions⟩), Callback.called (some ⟨regions⟩))

/-! Helper lemmas about the merge loop and id assignment. -/

theorem mergeLoop_map_id (t : ℚ) (p : Path) (nb : Bbox) (rs : List Region) :
    ((mergeLoop t p nb rs).1).map Region.id = rs.map Region.id := by
  induction rs with
  | nil => rfl
  | cons r rest ih =>
    simp only [mergeLoop]
    split
    · simp
    · simpa using ih

theorem mergeLoop_not_merged (t : ℚ) (p : Path) (nb : Bbox) (rs : List Region)
    (h : (mergeLoop t p nb rs).2 = false) : (mergeLoop t p nb rs).1 = rs := by
  induction rs with
  | nil => rfl
  | cons r rest ih =>
    simp only [mergeLoop] at h ⊢
    split at h
    · simp at h
    · simp only at h ⊢
      rename_i hcl
      simp only [hcl, if_neg] at *
      simp [ih h]

theorem mergeLoop_of_none_close (t : ℚ) (p : Path) (nb : Bbox) (rs : List Region)
    (h : ∀ r ∈ rs, areBboxesClose r.bbox nb t = false) :
    mergeLoop t p nb rs = (rs, false) := by
  induction rs with
  | nil => rfl
  | cons r rest ih =>
    have hr : areBboxesClose r.bbox nb t = false := h r (by simp)
    simp only [mergeLoop, hr]
    simp [ih (fun x hx => h x (by simp [hx]))]

theorem mergeLoop_first_match (t : ℚ) (p : Path) (nb : Bbox) :
    ∀ (rs : List Region) (i : ℕ) (hi : i < rs.length),
      areBboxesClose (rs.get ⟨i, hi⟩).bbox nb t = true →
      (∀ j (hj : j < rs.length), j < i → areBboxesClose (rs.get ⟨j, hj⟩).bbox nb t = false) →
      mergeLoop t p nb rs =
        (rs.take i ++
          ⟨(rs.get ⟨i, hi⟩).id, (rs.get ⟨i, hi⟩).paths ++ [p],
            mergeBboxes (rs.get ⟨i, hi⟩).bbox nb⟩ :: rs.drop (i + 1), true) := by
  intro rs
  induction rs with
  | nil => intro i hi; simp at hi
  | cons r rest ih =>
    intro i hi hclose hbefore
    cases i with
    | zero =>
      simp only [List.get] at hclose
      simp [mergeLoop, hclose]
    | succ i' =>
      have h0 : areBboxesClose r.bbox nb t = false := by
        have := hbefore 0 (by simp) (Nat.succ_pos i')
        simpa using this
      have hi' : i' < rest.length := by simpa using hi
      have hcl' : areBboxesClose (rest.get ⟨i', hi'⟩).bbox nb t = true := by
        simpa using hclose
      have hbef' : ∀ j (hj : j < rest.length), j < i' →
          areBboxesClose (rest.get ⟨j, hj⟩).bbox nb t = false := by
        intro j hj hji
        have := hbefore (j + 1) (by simpa using Nat.succ_lt_succ hj) (Nat.succ_lt_succ hji)
        simpa using this
      simp only [mergeLoop, h0]
      rw [if_neg (by simp)]
      simp only [ih i' hi' hcl' hbef']
      simp [List.take_succ_cons, List.drop_succ_cons]

theorem le_foldl_max (l : List ℕ) : ∀ a, a ≤ l.foldl max a := by
  induction l with
  | nil => intro a; simp
  | cons x xs ih =>
    intro a
    calc a ≤ max a x := le_max_left a x
    _ ≤ xs.foldl max (max a x) := ih (max a x)

theorem mem_le_foldl_max (l : List ℕ) : ∀ (a x : ℕ), x ∈ l → x ≤ l.foldl max a := by
  induction l with
  | nil => intro a x hx; simp at hx
  | cons y ys ih =>
    intro a x hx
    rcases List.mem_cons.mp hx with h | h
    · subst h
      calc x ≤ max a x := le_max_right a x
      _ ≤ ys.foldl max (max a x) := le_foldl_max ys (max a x)
    · exact ih (max a y) x h

theorem le_jsMax_of_mem {x : ℕ} {l : List ℕ} (h : x ∈ l) : x ≤ jsMax l :=
  mem_le_foldl_max l 0 x h

theorem commitPath_newId (regions : List Region) :
    (if 0 < regions.length then jsMax (regions.map Region.id) else 0) + 1 =
      jsMax (regions.map Region.id) + 1 := by
  cases regions with
  | nil => simp [jsMax]
  | cons r rest => simp

/-- A committed path either merges into an existing region, leaving the id
list untouched, or appends a fresh region with id `jsMax ids + 1`. -/
theorem commitPath_map_id (b : ℚ) (rs : List Region) (p : Path) :
    (commitPath b rs p).map Region.id = rs.map Region.id ∨
      (commitPath b rs p).map Region.id =
        rs.map Region.id ++ [jsMax (rs.map Region.id) + 1] := by
  unfold commitPath
  cases hm : (mergeLoop (b * MERGE_THRESHOLD_MULTIPLIER) p (getPathBbox p) rs).2 with
  | true =>
    left
    simp only [hm, if_true]
    exact mergeLoop_map_id _ _ _ _
  | false =>
    right
    simp only [hm, Bool.false_eq_true, if_false, List.map_append, commitPath_newId]
    rw [mergeLoop_not_merged _ _ _ _ hm]
    simp

/-! Helper lemmas about the history state. -/

theorem currentRegions_mem_or_eq_nil (s : CanvasState) :
    currentRegions s ∈ s.history ∨ currentRegions s = [] := by
  unfold currentRegions
  rcases Nat.lt_or_ge s.historyIndex s.history.length with h | h
  · left
    rw [List.getD_eq_getElem s.history [] h]
    exact s.history.getElem_mem h
  · right
    exact List.getD_eq_default s.history [] h

/-- A property of region sets that holds for the empty set and is preserved
by committing a path holds for every snapshot in every reachable history. -/
theorem histProp_step (P : List Region → Prop) (hnil : P [])
    (hcommit : ∀ (b : ℚ) (rs : List Region) (p : Path), P rs → P (commitPath b rs p))
    (s : CanvasState) (e : Ev) (hs : ∀ snap ∈ s.history, P snap) :
    ∀ snap ∈ (step s e).history, P snap := by
  cases e with
  | stroke b p =>
    simp only [step, stopDrawing]
    split
    · intro snap hsnap
      simp only [updateHistory, List.mem_append] at hsnap
      rcases hsnap with h | h
      · exact hs snap (List.take_subset _ _ h)
      · have hsnap2 : snap = commitPath b (currentRegions s) p := by simpa using h
        subst hsnap2
        rcases currentRegions_mem_or_eq_nil s with hc | hc
        · exact hcommit _ _ _ (hs _ hc)
        · rw [hc]
          exact hcommit _ _ _ hnil
    · exact hs
  | undo => exact hs
  | redo => exact hs
  | clear =>
    intro snap hsnap
    simp only [step, clearHistory, List.mem_singleton] at hsnap
    subst hsnap
    exact hnil

theorem histProp_runFrom (P : List Region → Prop) (hnil : P [])
    (hcommit : ∀ (b : ℚ) (rs : List Region) (p : Path), P rs → P (commitPath b rs p)) :
    ∀ (evs : List Ev) (s : CanvasState), (∀ snap ∈ s.history, P snap) →
      ∀ snap ∈ (runFrom s evs).history, P snap := by
  intro evs
  induction evs with
  | nil => intro s hs; exact hs
  | cons e rest ih =>
    intro s hs
    exact ih (step s e) (histProp_step P hnil hcommit s e hs)

theorem histProp_run (P : List Region → Prop) (hnil : P [])
    (hcommit : ∀ (b : ℚ) (rs : List Region) (p : Path), P rs → P (commitPath b rs p))
    (evs : List Ev) : ∀ snap ∈ (run evs).history, P snap := by
  refine histProp_runFrom P hnil hcommit evs initState ?_
  intro snap hsnap
  simp only [initState, List.mem_singleton] at hsnap
  subst hsnap
  exact hnil

theorem histProp_currentRegions (P : List Region → Prop) (hnil : P [])
    (hcommit : ∀ (b : ℚ) (rs : List Region) (p : Path), P rs → P (commitPath b rs p))
    (evs : List Ev) : P (currentRegions (run evs)) := by
  rcases currentRegions_mem_or_eq_nil (run evs) with h | h
  · exact histProp_run P hnil hcommit evs _ h
  · rw [h]; exact hnil

/-- Committing a path preserves strict increase of the id list. -/
theorem commitPath_pairwise (b : ℚ) (rs : List Region) (p : Path)
    (h : (rs.map Region.id).Pairwise (· < ·)) :
    ((commitPath b rs p).map Region.id).Pairwise (· < ·) := by
  rcases commitPath_map_id b rs p with heq | heq
  · rw [heq]; exact h
  · rw [heq]
    rw [List.pairwise_append]
    refine ⟨h, List.pairwise_singleton _ _, ?_⟩
    intro x hx y hy
    have hxm : x ≤ jsMax (rs.map Region.id) := le_jsMax_of_mem hx
    have hy2 : y = jsMax (rs.map Region.id) + 1 := by simpa using hy
    omega

/-- `pathsBbox` absorbs one appended path through `mergeBboxes`. -/
theorem pathsBbox_append (ps : List Path) (hps : ps ≠ []) (q : Path) :
    pathsBbox (ps ++ [q]) = mergeBboxes (pathsBbox ps) (getPathBbox q) := by
  cases ps with
  | nil => exact absurd rfl hps
  | cons p0 rest =>
    simp only [pathsBbox, List.cons_append, List.foldl_append, List.foldl_cons, List.foldl_nil]

/-- The merge loop preserves the bbox invariant when the candidate box is the
new path's own bounding box. -/
theorem mergeLoop_bbox_inv (t : ℚ) (p : Path) (rs : List Region)
    (h : ∀ r ∈ rs, r.paths ≠ [] ∧ r.bbox = pathsBbox r.paths) :
    ∀ r ∈ (mergeLoop t p (getPathBbox p) rs).1,
      r.paths ≠ [] ∧ r.bbox = pathsBbox r.paths := by
  induction rs with
  | nil => intro r hr; simp [mergeLoop] at hr
  | cons r0 rest ih =>
    intro r hr
    simp only [mergeLoop] at hr
    split at hr
    · simp only [List.mem_cons] at hr
      rcases hr with hr | hr
      · subst hr
        rcases h r0 (by simp) with ⟨hne, hbb⟩
        refine ⟨by simp, ?_⟩
        simp only
        rw [pathsBbox_append r0.paths hne p, hbb]
      · exact h r (by simp [hr])
    · simp only [List.mem_cons] at hr
      rcases hr with hr | hr
      · subst hr; exact h r (by simp)
      · exact ih (fun x hx => h x (by simp [hx])) r hr

/-- Case analysis on a commit: either the merge flag ended up true and the
result is the mapped list, or it stayed false and a fresh region was
pushed. -/
theorem commitPath_cases (b : ℚ) (rs : List Region) (p : Path) :
    ((mergeLoop (b * MERGE_THRESHOLD_MULTIPLIER) p (getPathBbox p) rs).2 = true ∧
      commitPath b rs p = (mergeLoop (b * MERGE_THRESHOLD_MULTIPLIER) p (getPathBbox p) rs).1) ∨
    ((mergeLoop (b * MERGE_THRESHOLD_MULTIPLIER) p (getPathBbox p) rs).2 = false ∧
      commitPath b rs p = (mergeLoop (b * MERGE_THRESHOLD_MULTIPLIER) p (getPathBbox p) rs).1 ++
        [⟨(if 0 < rs.length then jsMax (rs.map Region.id) else 0) + 1, [p], getPathBbox p⟩]) := by
  unfold commitPath
  cases hm : (mergeLoop (b * MERGE_THRESHOLD_MULTIPLIER) p (getPathBbox p) rs).2 with
  | true => left; exact ⟨rfl, by simp [hm]⟩
  | false => right; exact ⟨rfl, by simp [hm]⟩

/-- Committing a path preserves the bbox invariant. -/
theorem commitPath_bbox_inv (b : ℚ) (rs : List Region) (p : Path)
    (h : ∀ r ∈ rs, r.paths ≠ [] ∧ r.bbox = pathsBbox r.paths) :
    ∀ r ∈ commitPath b rs p, r.paths ≠ [] ∧ r.bbox = pathsBbox r.paths := by
  intro r hr
  rcases commitPath_cases b rs p with ⟨_, heq⟩ | ⟨_, heq⟩
  · rw [heq] at hr
    exact mergeLoop_bbox_inv _ _ rs h r hr
  · rw [heq] at hr
    simp only [List.mem_append, List.mem_singleton] at hr
    rcases hr with hr | hr
    · exact mergeLoop_bbox_inv _ _ rs h r hr
    · subst hr
      exact ⟨by simp, rfl⟩

/-! Helper lemmas about undo/redo iteration and stroke sequences. -/

theorem runFrom_replicate_undo (n : ℕ) : ∀ s : CanvasState,
    runFrom s (List.replicate n Ev.undo) = ⟨s.history, s.historyIndex - n⟩ := by
  induction n with
  | zero => intro s; simp [runFrom]
  | succ n ih =>
    intro s
    rw [List.replicate_succ]
    show runFrom (step s Ev.undo) (List.replicate n Ev.undo) = _
    rw [ih]
    simp only [step, undoStep]
    congr 1
    omega

theorem runFrom_replicate_redo (n : ℕ) : ∀ s : CanvasState,
    s.historyIndex ≤ s.history.length - 1 →
    runFrom s (List.replicate n Ev.redo) =
      ⟨s.history, min (s.history.length - 1) (s.historyIndex + n)⟩ := by
  induction n with
  | zero =>
    intro s hs
    simp only [List.replicate_zero, runFrom, List.foldl_nil, Nat.add_zero]
    rw [min_eq_right hs]
  | succ n ih =>
    intro s hs
    rw [List.replicate_succ]
    have hred : step s Ev.redo =
        ⟨s.history, min (s.history.length - 1) (s.historyIndex + 1)⟩ := rfl
    show runFrom (step s Ev.redo) (List.replicate n Ev.redo) = _
    rw [hred, ih ⟨s.history, min (s.history.length - 1) (s.historyIndex + 1)⟩
      (by simp only; exact min_le_left _ _)]
    congr 1
    simp only
    omega

/-- Committing `pairs.length` nonempty strokes extends the history by one
snapshot each, keeps the index at the end, and keeps the initial empty
snapshot at the head. -/
theorem runFrom_strokeEvs (pairs : List (ℚ × Path)) :
    ∀ s : CanvasState, (∀ bp ∈ pairs, bp.2 ≠ []) →
      s.historyIndex + 1 = s.history.length → s.history.head? = some [] →
      (runFrom s (strokeEvs pairs)).historyIndex = s.historyIndex + pairs.length ∧
      (runFrom s (strokeEvs pairs)).history.length = s.history.length + pairs.length ∧
      (runFrom s (strokeEvs pairs)).history.head? = some [] := by
  induction pairs with
  | nil => intro s _ h1 h2; exact ⟨by simp [strokeEvs, runFrom], by simp [strokeEvs, runFrom], by simp [strokeEvs, runFrom, h2]⟩
  | cons bp rest ih =>
    intro s hne h1 h2
    have hplen : 0 < bp.2.length :=
      List.length_pos.mpr (hne bp (by simp))
    have hstep : step s (Ev.stroke bp.1 bp.2) =
        ⟨s.history ++ [commitPath bp.1 (currentRegions s) bp.2], s.historyIndex + 1⟩ := by
      simp only [step, stopDrawing, if_pos hplen, updateHistory]
      have htake : s.history.take (s.historyIndex + 1) = s.history := by
        rw [h1]; exact List.take_length s.history
      rw [htake]
      congr 1
      simp [← h1]
    have hconc : strokeEvs (bp :: rest) = Ev.stroke bp.1 bp.2 :: strokeEvs rest := by
      simp [strokeEvs]
    have hrun : runFrom s (Ev.stroke bp.1 bp.2 :: strokeEvs rest) =
        runFrom (step s (Ev.stroke bp.1 bp.2)) (strokeEvs rest) := rfl
    rw [hconc, hrun, hstep]
    have hhead : (s.history ++ [commitPath bp.1 (currentRegions s) bp.2]).head? = some [] := by
      cases hh : s.history with
      | nil => rw [hh] at h2; simp at h2
      | cons a t =>
        rw [hh] at h2
        simp only [List.head?_cons, Option.some.injEq] at h2
        simp [h2]
    have := ih ⟨s.history ++ [commitPath bp.1 (currentRegions s) bp.2], s.historyIndex + 1⟩
      (fun x hx => hne x (by simp [hx])) (by simp [← h1]) hhead
    rcases this with ⟨ha, hb, hc⟩
    refine ⟨?_, ?_, hc⟩
    · rw [ha]; simp only [List.length_cons]; omega
    · rw [hb]; simp only [List.length_append, List.length_cons, List.length_nil]; omega

theorem getD_zero_of_head (l : List (List Region)) (h : l.head? = some []) :
    l.getD 0 [] = [] := by
  cases l with
  | nil => simp at h
  | cons a t =>
    simp only [List.head?_cons, Option.some.injEq] at h
    simp [h]

/-- The closeness test written out as four inequalities. -/
theorem areBboxesClose_iff (b1 b2 : Bbox) (t : ℚ) :
    areBboxesClose b1 b2 t = true ↔
      b1.minX - t ≤ b2.maxX ∧ b1.maxX + t ≥ b2.minX ∧
      b1.minY - t ≤ b2.maxY ∧ b1.maxY + t ≥ b2.minY := by
  simp [areBboxesClose, and_assoc]

/-- The closeness test is symmetric: expanding `b1` and intersecting with
`b2` succeeds exactly when expanding `b2` and intersecting with `b1` does. -/
theorem areBboxesClose_symm (b1 b2 : Bbox) (t : ℚ)
    (h : areBboxesClose b1 b2 t = true) : areBboxesClose b2 b1 t = true := by
  rw [areBboxesClose_iff] at h ⊢
  obtain ⟨h1, h2, h3, h4⟩ := h
  refine ⟨by linarith, by linarith, by linarith, by linarith⟩

theorem undo_redo_fixed (t : List Ev) (h : ∀ e ∈ t, e = Ev.undo ∨ e = Ev.redo) :
    runFrom ⟨[[]], 0⟩ t = ⟨[[]], 0⟩ := by
  induction t with
  | nil => rfl
  | cons e rest ih =>
    have he : step ⟨[[]], 0⟩ e = ⟨[[]], 0⟩ := by
      rcases h e (by simp) with he | he <;> subst he <;> rfl
    show runFrom (step ⟨[[]], 0⟩ e) rest = _
    rw [he]
    exact ih (fun x hx => h x (by simp [hx]))

/-- When no existing region is close to the new path's bbox, the commit
appends a fresh region with id `jsMax ids + 1`. -/
theorem commitPath_no_close (b : ℚ) (regions : List Region) (p : Path)
    (h : ∀ r ∈ regions,
      areBboxesClose r.bbox (getPathBbox p) (b * MERGE_THRESHOLD_MULTIPLIER) = false) :
    commitPath b regions p =
      regions ++ [⟨jsMax (regions.map Region.id) + 1, [p], getPathBbox p⟩] := by
  have hml := mergeLoop_of_none_close (b * MERGE_THRESHOLD_MULTIPLIER) p (getPathBbox p)
    regions h
  rcases commitPath_cases b regions p with ⟨hm, heq⟩ | ⟨hm, heq⟩
  · rw [hml] at hm; simp at hm
  · rw [heq, hml, commitPath_newId]

/-- When region `i` is the first close region, the commit updates exactly
region `i` and leaves everything else in place. -/
theorem commitPath_first_close (b : ℚ) (regions : List Region) (p : Path)
    (i : ℕ) (hi : i < regions.length)
    (hclose : areBboxesClose (regions.get ⟨i, hi⟩).bbox (getPathBbox p)
        (b * MERGE_THRESHOLD_MULTIPLIER) = true)
    (hbefore : ∀ j (hj : j < regions.length), j < i →
      areBboxesClose (regions.get ⟨j, hj⟩).bbox (getPathBbox p)
          (b * MERGE_THRESHOLD_MULTIPLIER) = false) :
    commitPath b regions p =
      regions.take i ++
        ⟨(regions.get ⟨i, hi⟩).id, (regions.get ⟨i, hi⟩).paths ++ [p],
          mergeBboxes (regions.get ⟨i, hi⟩).bbox (getPathBbox p)⟩ ::
        regions.drop (i + 1) := by
  have hml := mergeLoop_first_match (b * MERGE_THRESHOLD_MULTIPLIER) p (getPathBbox p)
    regions i hi hclose hbefore
  rcases commitPath_cases b regions p with ⟨hm, heq⟩ | ⟨hm, heq⟩
  · rw [heq, hml]
  · rw [hml] at hm; simp at hm

/-- Two isolated strokes whose bboxes pass the closeness test end up as the
two paths of the single region, when committed onto the empty canvas. -/
theorem two_strokes_merge (b : ℚ) (A B : Path) (hA : 0 < A.length) (hB : 0 < B.length)
    (hclose : areBboxesClose (getPathBbox A) (getPathBbox B)
        (b * MERGE_THRESHOLD_MULTIPLIER) = true) :
    currentRegions (run [Ev.stroke b A, Ev.stroke b B]) =
      [⟨1, [A, B], mergeBboxes (getPathBbox A) (getPathBbox B)⟩] := by
  have hstop1 : stopDrawing b initState A = ⟨[[], [⟨1, [A], getPathBbox A⟩]], 1⟩ := by
    unfold stopDrawing
    rw [if_pos hA]
    rfl
  have hcommit2 : commitPath b [⟨1, [A], getPathBbox A⟩] B =
      [⟨1, [A, B], mergeBboxes (getPathBbox A) (getPathBbox B)⟩] := by
    unfold commitPath mergeLoop
    simp [hclose]
  have hstop2 : stopDrawing b (⟨[[], [⟨1, [A], getPathBbox A⟩]], 1⟩ : CanvasState) B =
      ⟨[[], [⟨1, [A], getPathBbox A⟩],
        [⟨1, [A, B], mergeBboxes (getPathBbox A) (getPathBbox B)⟩]], 2⟩ := by
    unfold stopDrawing
    rw [if_pos hB]
    have hcur : currentRegions (⟨[[], [⟨1, [A], getPathBbox A⟩]], 1⟩ : CanvasState) =
        [⟨1, [A], getPathBbox A⟩] := rfl
    rw [hcur, hcommit2]
    rfl
  show currentRegions (runFrom (step initState (Ev.stroke b A)) [Ev.stroke b B]) = _
  have hst : step initState (Ev.stroke b A) = ⟨[[], [⟨1, [A], getPathBbox A⟩]], 1⟩ := hstop1
  rw [hst]
  show currentRegions (step (⟨[[], [⟨1, [A], getPathBbox A⟩]], 1⟩ : CanvasState)
    (Ev.stroke b B)) = _
  have hst2 : step (⟨[[], [⟨1, [A], getPathBbox A⟩]], 1⟩ : CanvasState) (Ev.stroke b B) =
      ⟨[[], [⟨1, [A], getPathBbox A⟩],
        [⟨1, [A, B], mergeBboxes (getPathBbox A) (getPathBbox B)⟩]], 2⟩ := hstop2
  rw [hst2]
  rfl

/-! The claims. -/

/-- C1 counterexample: with brush size 1, stroke A gets id 1 and stroke B
(far away) gets id 2; after one undo, the next stroke C (far from A) is
assigned id 2 again — the id of the undone stroke B is reused, not an id
greater than 2 as the claim demands. -/
theorem C1_counterexample :
    (currentRegions (run [Ev.stroke 1 [⟨0, 0⟩, ⟨1, 0⟩],
        Ev.stroke 1 [⟨100, 0⟩, ⟨101, 0⟩]])).map Region.id = [1, 2] ∧
    currentRegions (run [Ev.stroke 1 [⟨0, 0⟩, ⟨1, 0⟩], Ev.stroke 1 [⟨100, 0⟩, ⟨101, 0⟩],
        Ev.undo, Ev.stroke 1 [⟨200, 0⟩, ⟨201, 0⟩]]) =
      [⟨1, [[⟨0, 0⟩, ⟨1, 0⟩]], ⟨0, 0, 1, 0⟩⟩,
       ⟨2, [[⟨200, 0⟩, ⟨201, 0⟩]], ⟨200, 0, 201, 0⟩⟩] := by
  with_unfolding_all decide

/-- C1 amended: a freshly created region's id is `(max id in the current
RegionSet, or 0) + 1`, strictly greater than every id in the current set —
so ids are unique within each RegionSet — but across undo an id can be
reused, as the counterexample shows. -/
theorem C1_amended (b : ℚ) (regions : List Region) (p : Path)
    (h : ∀ r ∈ regions,
      areBboxesClose r.bbox (getPathBbox p) (b * MERGE_THRESHOLD_MULTIPLIER) = false) :
    commitPath b regions p =
      regions ++ [⟨jsMax (regions.map Region.id) + 1, [p], getPathBbox p⟩] ∧
    ∀ r ∈ regions, r.id < jsMax (regions.map Region.id) + 1 := by
  refine ⟨commitPath_no_close b regions p h, ?_⟩
  intro r hr
  have : r.id ≤ jsMax (regions.map Region.id) :=
    le_jsMax_of_mem (List.mem_map_of_mem Region.id hr)
  omega

/-- C1 amended witness: a set holding only id 2 (as after an undo) receives
a new region with id 3 = max + 1. -/
theorem C1_amended_witness :
    commitPath 1 [⟨2, [[(⟨0, 0⟩ : Point)]], ⟨0, 0, 0, 0⟩⟩] [(⟨100, 0⟩ : Point)] =
      [⟨2, [[⟨0, 0⟩]], ⟨0, 0, 0, 0⟩⟩] ++
        [⟨jsMax (List.map Region.id [⟨2, [[(⟨0, 0⟩ : Point)]], ⟨0, 0, 0, 0⟩⟩]) + 1,
          [[⟨100, 0⟩]], getPathBbox [⟨100, 0⟩]⟩] ∧
    ∀ r ∈ [(⟨2, [[(⟨0, 0⟩ : Point)]], ⟨0, 0, 0, 0⟩⟩ : Region)],
      r.id < jsMax (List.map Region.id [(⟨2, [[(⟨0, 0⟩ : Point)]], ⟨0, 0, 0, 0⟩⟩ : Region)]) + 1 :=
  C1_amended 1 [⟨2, [[(⟨0, 0⟩ : Point)]], ⟨0, 0, 0, 0⟩⟩] [(⟨100, 0⟩ : Point)]
    (by with_unfolding_all decide)

/-- C2 counterexample: with brush size 1, the single-point strokes at (0,0)
and (4,0) have bounding boxes that intersect after each is expanded by
2.5·1 on all four sides, yet committing both — in either order — produces
two separate regions, because the code expands only one box by 2.5·b. -/
theorem C2_counterexample :
    ((getPathBbox [(⟨0, 0⟩ : Point)]).minX - 5/2 ≤ (getPathBbox [(⟨4, 0⟩ : Point)]).maxX + 5/2 ∧
     (getPathBbox [(⟨0, 0⟩ : Point)]).maxX + 5/2 ≥ (getPathBbox [(⟨4, 0⟩ : Point)]).minX - 5/2 ∧
     (getPathBbox [(⟨0, 0⟩ : Point)]).minY - 5/2 ≤ (getPathBbox [(⟨4, 0⟩ : Point)]).maxY + 5/2 ∧
     (getPathBbox [(⟨0, 0⟩ : Point)]).maxY + 5/2 ≥ (getPathBbox [(⟨4, 0⟩ : Point)]).minY - 5/2) ∧
    currentRegions (run [Ev.stroke 1 [⟨0, 0⟩], Ev.stroke 1 [⟨4, 0⟩]]) =
      [⟨1, [[⟨0, 0⟩]], ⟨0, 0, 0, 0⟩⟩, ⟨2, [[⟨4, 0⟩]], ⟨4, 0, 4, 0⟩⟩] ∧
    currentRegions (run [Ev.stroke 1 [⟨4, 0⟩], Ev.stroke 1 [⟨0, 0⟩]]) =
      [⟨1, [[⟨4, 0⟩]], ⟨4, 0, 4, 0⟩⟩, ⟨2, [[⟨0, 0⟩]], ⟨0, 0, 0, 0⟩⟩] := by
  with_unfolding_all decide

/-- C2 amended: for strokes whose bboxes pass the code's closeness test —
one bbox expanded by `brushSize * 2.5` on all four sides intersects the
other (the test is symmetric) — committing both onto the empty canvas, in
either order, puts both paths into the same single region. -/
theorem C2_amended (b : ℚ) (A B : Path) (hA : A ≠ []) (hB : B ≠ [])
    (hclose : areBboxesClose (getPathBbox A) (getPathBbox B)
        (b * MERGE_THRESHOLD_MULTIPLIER) = true) :
    currentRegions (run [Ev.stroke b A, Ev.stroke b B]) =
      [⟨1, [A, B], mergeBboxes (getPathBbox A) (getPathBbox B)⟩] ∧
    currentRegions (run [Ev.stroke b B, Ev.stroke b A]) =
      [⟨1, [B, A], mergeBboxes (getPathBbox B) (getPathBbox A)⟩] :=
  ⟨two_strokes_merge b A B (List.length_pos.mpr hA) (List.length_pos.mpr hB) hclose,
   two_strokes_merge b B A (List.length_pos.mpr hB) (List.length_pos.mpr hA)
     (areBboxesClose_symm _ _ _ hclose)⟩

/-- C2 amended witness: two close single-point strokes merge into one
region in either order. -/
theorem C2_amended_witness :
    currentRegions (run [Ev.stroke 1 [(⟨0, 0⟩ : Point)], Ev.stroke 1 [(⟨1, 0⟩ : Point)]]) =
      [⟨1, [[⟨0, 0⟩], [⟨1, 0⟩]],
        mergeBboxes (getPathBbox [⟨0, 0⟩]) (getPathBbox [⟨1, 0⟩])⟩] ∧
    currentRegions (run [Ev.stroke 1 [(⟨1, 0⟩ : Point)], Ev.stroke 1 [(⟨0, 0⟩ : Point)]]) =
      [⟨1, [[⟨1, 0⟩], [⟨0, 0⟩]],
        mergeBboxes (getPathBbox [⟨1, 0⟩]) (getPathBbox [⟨0, 0⟩])⟩] :=
  C2_amended 1 [⟨0, 0⟩] [⟨1, 0⟩] (by decide) (by decide) (by with_unfolding_all decide)

/-- C4: commits follow first-match merging.  If no existing region's bbox is
close to the new path's bbox, a new region is appended with id
`(max existing id, or 0) + 1`, paths `[newPath]` and the new path's bbox;
otherwise exactly the first close region (index `i`) has the path appended
and its bbox merged, and every other region is unchanged. -/
theorem C4_first_match (b : ℚ) (regions : List Region) (p : Path) :
    ((∀ r ∈ regions,
        areBboxesClose r.bbox (getPathBbox p) (b * MERGE_THRESHOLD_MULTIPLIER) = false) →
      commitPath b regions p =
        regions ++ [⟨jsMax (regions.map Region.id) + 1, [p], getPathBbox p⟩]) ∧
    (∀ i (hi : i < regions.length),
      areBboxesClose (regions.get ⟨i, hi⟩).bbox (getPathBbox p)
          (b * MERGE_THRESHOLD_MULTIPLIER) = true →
      (∀ j (hj : j < regions.length), j < i →
        areBboxesClose (regions.get ⟨j, hj⟩).bbox (getPathBbox p)
            (b * MERGE_THRESHOLD_MULTIPLIER) = false) →
      commitPath b regions p =
        regions.take i ++
          ⟨(regions.get ⟨i, hi⟩).id, (regions.get ⟨i, hi⟩).paths ++ [p],
            mergeBboxes (regions.get ⟨i, hi⟩).bbox (getPathBbox p)⟩ ::
          regions.drop (i + 1)) :=
  ⟨commitPath_no_close b regions p,
   fun i hi hclose hbefore => commitPath_first_close b regions p i hi hclose hbefore⟩

/-- C4 witness: a stroke on the empty set creates region 1; a close second
stroke merges into it as the first (index 0) close region. -/
theorem C4_witness :
    commitPath 1 [] [(⟨0, 0⟩ : Point)] =
      [] ++ [⟨jsMax (List.map Region.id []) + 1, [[⟨0, 0⟩]], getPathBbox [⟨0, 0⟩]⟩] ∧
    commitPath 1 [⟨1, [[(⟨0, 0⟩ : Point)]], ⟨0, 0, 0, 0⟩⟩] [(⟨1, 0⟩ : Point)] =
      [⟨1, [[(⟨0, 0⟩ : Point)]], ⟨0, 0, 0, 0⟩⟩].take 0 ++
        ⟨1, [[(⟨0, 0⟩ : Point)]] ++ [[⟨1, 0⟩]],
          mergeBboxes (⟨0, 0, 0, 0⟩ : Bbox) (getPathBbox [⟨1, 0⟩])⟩ ::
        [⟨1, [[(⟨0, 0⟩ : Point)]], ⟨0, 0, 0, 0⟩⟩].drop 1 :=
  ⟨(C4_first_match 1 [] [(⟨0, 0⟩ : Point)]).1 (by simp),
   (C4_first_match 1 [⟨1, [[(⟨0, 0⟩ : Point)]], ⟨0, 0, 0, 0⟩⟩] [(⟨1, 0⟩ : Point)]).2
     0 (by simp) (by with_unfolding_all decide) (by omega)⟩

/-- C5 counterexample: a single-point captured path (a click with no
movement) has fewer than two points, yet committing it does create a
region and does change the history. -/
theorem C5_counterexample :
    ([(⟨0, 0⟩ : Point)] : Path).length < 2 ∧
    currentRegions (run [Ev.stroke 1 [⟨0, 0⟩]]) = [⟨1, [[⟨0, 0⟩]], ⟨0, 0, 0, 0⟩⟩] ∧
    run [Ev.stroke 1 [⟨0, 0⟩]] ≠ initState := by
  with_unfolding_all decide

/-- C5 amended: only a captured path with zero points is discarded — stroke
completion on an empty path leaves the RegionSet and the whole history
state unchanged (and surfaces nothing); a one-point path is committed. -/
theorem C5_empty_path_noop (b : ℚ) (s : CanvasState) : stopDrawing b s [] = s := rfl

/-- C3: for every sequence of N committed (nonempty) strokes, undo applied N
times returns the current RegionSet to the empty RegionSet, and redo applied
N times after that restores the state — and hence the RegionSet — that was
current after the Nth commit, exactly. -/
theorem C3_undo_redo_roundtrip (pairs : List (ℚ × Path))
    (h : ∀ bp ∈ pairs, bp.2 ≠ []) :
    currentRegions (runFrom (run (strokeEvs pairs))
        (List.replicate pairs.length Ev.undo)) = [] ∧
    runFrom (runFrom (run (strokeEvs pairs)) (List.replicate pairs.length Ev.undo))
        (List.replicate pairs.length Ev.redo) = run (strokeEvs pairs) ∧
    currentRegions (runFrom (runFrom (run (strokeEvs pairs))
        (List.replicate pairs.length Ev.undo)) (List.replicate pairs.length Ev.redo)) =
      currentRegions (run (strokeEvs pairs)) := by
  obtain ⟨ha, hb, hc⟩ := runFrom_strokeEvs pairs initState h rfl rfl
  have hinit_idx : initState.historyIndex = 0 := rfl
  have hinit_len : initState.history.length = 1 := rfl
  rw [hinit_idx] at ha
  rw [hinit_len] at hb
  simp only [run]
  have hundo : runFrom (runFrom initState (strokeEvs pairs))
      (List.replicate pairs.length Ev.undo) =
      ⟨(runFrom initState (strokeEvs pairs)).history, 0⟩ := by
    rw [runFrom_replicate_undo]
    congr 1
    rw [ha]
    omega
  have hcur : currentRegions
      (⟨(runFrom initState (strokeEvs pairs)).history, 0⟩ : CanvasState) = [] := by
    unfold currentRegions
    exact getD_zero_of_head _ hc
  have hredo : runFrom (⟨(runFrom initState (strokeEvs pairs)).history, 0⟩ : CanvasState)
      (List.replicate pairs.length Ev.redo) = runFrom initState (strokeEvs pairs) := by
    rw [runFrom_replicate_redo pairs.length
      ⟨(runFrom initState (strokeEvs pairs)).history, 0⟩ (by simp)]
    ext
    · simp
    · simp only
      rw [hb, ha]
      omega
  refine ⟨?_, ?_, ?_⟩
  · rw [hundo]; exact hcur
  · rw [hundo]; exact hredo
  · rw [hundo, hredo]

/-- C3 witness: one committed single-point stroke, one undo, one redo. -/
theorem C3_witness :
    currentRegions (runFrom (run (strokeEvs [((1 : ℚ), [(⟨0, 0⟩ : Point)])]))
        (List.replicate 1 Ev.undo)) = [] ∧
    runFrom (runFrom (run (strokeEvs [((1 : ℚ), [(⟨0, 0⟩ : Point)])]))
        (List.replicate 1 Ev.undo)) (List.replicate 1 Ev.redo) =
      run (strokeEvs [((1 : ℚ), [(⟨0, 0⟩ : Point)])]) ∧
    currentRegions (runFrom (runFrom (run (strokeEvs [((1 : ℚ), [(⟨0, 0⟩ : Point)])]))
        (List.replicate 1 Ev.undo)) (List.replicate 1 Ev.redo)) =
      currentRegions (run (strokeEvs [((1 : ℚ), [(⟨0, 0⟩ : Point)])])) :=
  C3_undo_redo_roundtrip [((1 : ℚ), [(⟨0, 0⟩ : Point)])] (by decide)

/-- C6: in every reachable RegionSet, every region's paths list is nonempty
and its bbox equals the component-wise min/max union of the per-path
bounding boxes of its paths. -/
theorem C6_bbox_invariant (evs : List Ev) :
    ∀ r ∈ currentRegions (run evs), r.paths ≠ [] ∧ r.bbox = pathsBbox r.paths :=
  histProp_currentRegions _ (by simp) commitPath_bbox_inv evs

/-- C6 witness: the invariant at the region produced by one stroke. -/
theorem C6_witness :
    ((⟨1, [[⟨0, 0⟩]], ⟨0, 0, 0, 0⟩⟩ : Region).paths ≠ [] ∧
      (⟨1, [[⟨0, 0⟩]], ⟨0, 0, 0, 0⟩⟩ : Region).bbox =
        pathsBbox (⟨1, [[⟨0, 0⟩]], ⟨0, 0, 0, 0⟩⟩ : Region).paths) :=
  C6_bbox_invariant [Ev.stroke 1 [⟨0, 0⟩]] ⟨1, [[⟨0, 0⟩]], ⟨0, 0, 0, 0⟩⟩
    (by with_unfolding_all decide)

/-- C10: in every reachable RegionSet the region ids are strictly increasing
in stored order (hence unique); moreover a commit either preserves the id
list exactly (merge case) or appends `jsMax ids + 1`, an id strictly greater
than every id in the set. -/
theorem C10_ids_strictly_increasing (evs : List Ev) :
    ((currentRegions (run evs)).map Region.id).Pairwise (· < ·) ∧
    ∀ (b : ℚ) (p : Path),
      (commitPath b (currentRegions (run evs)) p).map Region.id =
          (currentRegions (run evs)).map Region.id ∨
      (commitPath b (currentRegions (run evs)) p).map Region.id =
          (currentRegions (run evs)).map Region.id ++
            [jsMax ((currentRegions (run evs)).map Region.id) + 1] :=
  ⟨histProp_currentRegions _ (by simp) commitPath_pairwise evs,
   fun b p => commitPath_map_id b _ p⟩

/-- C9: when the current RegionSet is empty, `generateOutputImages` reports
both the composite preview and the mask export as absent (`null`), whether
or not the source image has loaded, rather than producing blank images. -/
theorem C9_empty_reports_absent (imageLoaded : Bool) :
    generateOutputImages [] imageLoaded = (Callback.called none, Callback.called none) := rfl

/-- C7: clear resets the state to the single empty snapshot: afterwards
canUndo and canRedo are false, the current region list is empty, the history
is exactly `[[]]`, and no sequence of undo/redo events can leave that state,
so the pre-clear history is unreachable. -/
theorem C7_clear_resets (s : CanvasState) (evs : List Ev)
    (h : ∀ e ∈ evs, e = Ev.undo ∨ e = Ev.redo) :
    canUndo (clearHistory s) = false ∧ canRedo (clearHistory s) = false ∧
    currentRegions (clearHistory s) = [] ∧ (clearHistory s).history = [[]] ∧
    runFrom (clearHistory s) evs = clearHistory s :=
  ⟨rfl, rfl, rfl, rfl, undo_redo_fixed evs h⟩

/-- C7 witness: clear after a stroke, followed by one undo and one redo. -/
theorem C7_witness :
    canUndo (clearHistory (run [Ev.stroke 1 [⟨0, 0⟩]])) = false ∧
    canRedo (clearHistory (run [Ev.stroke 1 [⟨0, 0⟩]])) = false ∧
    currentRegions (clearHistory (run [Ev.stroke 1 [⟨0, 0⟩]])) = [] ∧
    (clearHistory (run [Ev.stroke 1 [⟨0, 0⟩]])).history = [[]] ∧
    runFrom (clearHistory (run [Ev.stroke 1 [⟨0, 0⟩]])) [Ev.undo, Ev.redo] =
      clearHistory (run [Ev.stroke 1 [⟨0, 0⟩]]) :=
  C7_clear_resets (run [Ev.stroke 1 [⟨0, 0⟩]]) [Ev.undo, Ev.redo] (by decide)

/-- C8: the region-prompt reconciliation returns exactly the list described
by the spec — one entry per current region id, in the current order (so ids
no longer present are dropped), reusing the previous text of an id that
already had an entry and giving empty text to a new id — and in particular
its id list is exactly the current region id list. -/
theorem C8_prompt_reconciliation (regions : List ℕ) (prev : List RegionPrompt) :
    handleRegionsChange regions prev = reconcileSpec regions prev ∧
    (handleRegionsChange regions prev).map RegionPrompt.id = regions := by
  constructor
  · unfold handleRegionsChange reconcileSpec
    apply List.map_congr_left
    intro rid _
    cases hf : prev.find? (fun p => p.id == rid) with
    | none => simp
    | some e =>
      have hid : e.id = rid := by
        have := List.find?_some hf
        simpa using this
      cases e
      simp only at hid
      simp [hid]
  · unfold handleRegionsChange
    rw [List.map_map]
    have hrw : regions.map (RegionPrompt.id ∘ fun rid =>
        match prev.find? (fun p => p.id == rid) with
        | some existing => existing
        | none => ⟨rid, ""⟩) = regions.map id := by
      apply List.map_congr_left
      intro rid _
      cases hf : prev.find? (fun p => p.id == rid) with
      | none => simp [hf]
      | some e =>
        have hid : e.id = rid := by
          have := List.find?_some hf
          simpa using this
        simp [Function.comp, hf, hid]
    rw [hrw, List.map_id]

end Thumbgen
